import Mathlib

set_option maxRecDepth 8192
set_option maxHeartbeats 1000000

/-!
Verification of the occule steganography codecs.

This file is a shallow embedding of the core codecs of the occule crate:

* `ReverseAppendix` embeds `src/binary/reverse_appendix.rs`
  (`BinaryReverseAppendixCodec`), byte for byte on `List Nat` buffers.
* `Champleve` embeds `src/lossless/champleve.rs`, `LosslessLsb` embeds
  `src/lossless/lsb.rs`.  The `image` crate is external: a parsed
  `DynamicImage` is represented by its pixel grid in raster order, each
  pixel being the list of its byte-valued channels (`Rgb<u8>` has exactly
  3 channels, `Rgba<u8>` exactly 4); any other pixel format is kept
  abstract as a format tag plus a pixel count, which is all the codec
  inspects of it.
* `WavLsb` embeds `src/wav/lsb.rs`.  The `hound` reader/writer is
  external: a parsed WAV file is its sample format, bit depth and sample
  stream, each sample represented by the little-endian byte list that
  `to_le_bytes` yields (1 byte for `i8`, 2 for `i16`, 4 for `i32`/`f32`);
  `from_le_bytes ∘ to_le_bytes` is the identity on a sample, so the
  codec's bit manipulation acts directly on those byte lists.
* `JpegSegment` embeds `src/jpeg/segment.rs`.  The `img_parts` JPEG
  parser/serializer is external: a parsed `Jpeg` is its ordered segment
  list, each segment a marker byte plus its contents.

Machine integers are modelled as `Nat`; wrapping is written out with
`% 2 ^ w` (or is implicit in `toLE`, which only keeps the encoded bytes)
exactly where the Rust types wrap.  Rust panics (out-of-bounds indexing,
`unwrap` failure, integer underflow in a loop bound) are modelled by a
dedicated `panicked` error value so that they stay distinguishable from
the error values the source can actually return.
-/

namespace Occule

/-- Little-endian byte list of `n`, `k` bytes wide: models Rust
`to_le_bytes` on a `k`-byte unsigned integer (the value is implicitly
reduced `mod 256 ^ k`, which is exactly what the fixed-width Rust integer
holds). -/
def toLE : Nat → Nat → List Nat
  | 0, _ => []
  | k + 1, n => n % 256 :: toLE k (n / 256)

/-- Value of a little-endian byte list: models Rust `from_le_bytes`. -/
def fromLE : List Nat → Nat
  | [] => 0
  | b :: rest => b + 256 * fromLE rest

/-- Error enum of `src/codec.rs` (`CodecError`), shared by the appendix and
WAV codecs.  The extra `panicked` constructor is a model artifact standing
for a Rust panic (out-of-bounds index, failed `unwrap`, arithmetic
underflow); it is not a variant of the source enum. -/
inductive CodecError
  | dataNotEncoded
  | dataInvalid (msg : String)
  | dependencyError (msg : String)
  | panicked
deriving DecidableEq

namespace ReverseAppendix

/-- Embeds `BinaryReverseAppendixCodec::encode`: appends to the carrier the
reverse of `(payload.len() as u64 + 8).to_le_bytes() ++ payload`.  The
source has no failing path, so the result is always `Ok`. -/
def encode (carrier payload : List Nat) : Except CodecError (List Nat) :=
  .ok (carrier ++ (toLE 8 (payload.length + 8) ++ payload).reverse)

/-- Embeds `BinaryReverseAppendixCodec::decode`: reads the trailing 8 bytes
back to front as a little-endian `u64` trailer length, checks
`encoded_len < payload_len + 8 || payload_len < 8`, then slices carrier and
payload.  The check computes `payload_len + 8` on `usize`: when the trailing
length field is at least `2^64 - 8` the addition overflows — a panic in
debug builds, and in release builds the wrapped check passes, after which
`carrier_len = encoded_len - payload_len` wraps (a `Vec` is shorter than
`2^63 < 2^64 - 8` bytes) and the slice `encoded[..carrier_len]` panics out
of range — so that whole region is a panic, not a returned error. -/
def decode (encoded : List Nat) : Except CodecError (List Nat × List Nat) :=
  if encoded.length < 8 then .error .dataNotEncoded
  else
    let payloadLen := fromLE (encoded.reverse.take 8)
    if 2 ^ 64 - 8 ≤ payloadLen then .error .panicked
    else if encoded.length < payloadLen + 8 ∨ payloadLen < 8 then .error .dataNotEncoded
    else
      let carrierLen := encoded.length - payloadLen
      .ok (encoded.take carrierLen, (encoded.reverse.drop 8).take (payloadLen - 8))

end ReverseAppendix

/-- Color formats of the `image` crate's `DynamicImage`, reduced to what the
lossless codecs dispatch on: the two supported formats and an opaque code
for every other `ColorType`. -/
inductive PixelFormat
  | rgb8
  | rgba8
  | other (code : Nat)
deriving DecidableEq

/-- A parsed `DynamicImage`.  The two supported variants carry their pixels
in raster order, each pixel the list of its byte-valued channels (always 3
for `Rgb<u8>`, 4 for `Rgba<u8>`); an image of any other format is kept
abstract as its format plus its pixel count, which is all the codecs read
from it. -/
inductive Img
  | rgb8 (pixels : List (List Nat))
  | rgba8 (pixels : List (List Nat))
  | unsupported (format : PixelFormat) (pixelCount : Nat)
deriving DecidableEq

/-- Models `DynamicImage::color`. -/
def Img.color : Img → PixelFormat
  | .rgb8 _ => .rgb8
  | .rgba8 _ => .rgba8
  | .unsupported f _ => f

/-- Models `image.pixels().count()`. -/
def Img.pixelCount : Img → Nat
  | .rgb8 px => px.length
  | .rgba8 px => px.length
  | .unsupported _ n => n

namespace Champleve

/-- Error enum of `src/lossless/champleve.rs` (`ChampleveError`). -/
inductive ChampleveError
  | payloadTooBig
  | unsupportedFormat (format : PixelFormat)
deriving DecidableEq

/-- Loop body of `champleve.rs::encode_pixel`: clear the low 3 bits of each
channel, then or in a shifted 3-bit slice of the payload byte while the
running `bits_remaining : i32` (decremented by 3 per channel) allows;
`break` leaves the remaining channels untouched. -/
def encodePixelGo (payloadByte : Nat) (bitsRemaining : Int) : List Nat → List Nat
  | [] => []
  | ch :: rest =>
      let ch1 := ch &&& 248
      let br := bitsRemaining - 3
      if br ≤ -3 then ch1 :: rest
      else
        let mask := (if br < 0 then payloadByte <<< (-br).toNat
                     else payloadByte >>> br.toNat) &&& 7
        (ch1 ||| mask) :: encodePixelGo payloadByte br rest

/-- Models `*pixel.channels_mut().last_mut().unwrap() |= 1`.  Pixels of the
supported formats always have 3 or 4 channels, so the empty case (a panic
in Rust) is unreachable and mapped to the empty list. -/
def orLastOne : List Nat → List Nat
  | [] => []
  | [ch] => [ch ||| 1]
  | ch :: rest => ch :: orLastOne rest

/-- Embeds `champleve.rs::encode_pixel`. -/
def encodePixel (px : List Nat) (payloadByte : Nat) (endOfData : Bool) : List Nat :=
  let px1 := encodePixelGo payloadByte 8 px
  if endOfData then orLastOne px1 else px1

/-- Loop body of `champleve.rs::decode_pixel`: re-read the 3-bit slices
(clearing them in the pixel) and or them into the reconstructed byte. -/
def decodePixelGo (bitsRemaining : Int) (acc : Nat) : List Nat → List Nat × Nat
  | [] => ([], acc)
  | ch :: rest =>
      let br := bitsRemaining - 3
      if br ≤ -3 then (ch :: rest, acc)
      else
        let chBits := ch &&& 7
        let mask := if br < 0 then chBits >>> (-br).toNat else chBits <<< br.toNat
        let step := decodePixelGo br (acc ||| mask) rest
        ((ch &&& 248) :: step.1, step.2)

/-- Embeds `champleve.rs::decode_pixel`: the last channel's bit 0 is the
end-of-data marker (checked before any channel is modified).  The
`getLastD 0` stands for `channels().last().unwrap()`, whose failure is
unreachable for the supported pixel formats. -/
def decodePixel (px : List Nat) : Option (List Nat × Nat) :=
  if px.getLastD 0 &&& 1 = 1 then none
  else some (decodePixelGo 8 0 px)

/-- The per-pixel loop of `ChampleveCodec::encode`: pixels carrying payload
bytes are encoded with `end_of_data = false`, every pixel after the payload
is exhausted is encoded as `(0, true)`. -/
def encodePixels : List Nat → List (List Nat) → List (List Nat)
  | _, [] => []
  | [], px :: rest => encodePixel px 0 true :: encodePixels [] rest
  | b :: bs, px :: rest => encodePixel px b false :: encodePixels bs rest

/-- The per-pixel loop of `ChampleveCodec::decode`: pixels are decoded in
order until the end-of-data marker (or the end of the image); the `break`
leaves the marker pixel and everything after it unmodified. -/
def decodePixels : List (List Nat) → List (List Nat) × List Nat
  | [] => ([], [])
  | px :: rest =>
      match decodePixel px with
      | none => (px :: rest, [])
      | some (px1, b) =>
          let step := decodePixels rest
          (px1 :: step.1, b :: step.2)

/-- Embeds `ChampleveCodec::encode`: the capacity check
`image.pixels().count() < payload.len()` runs before the format dispatch. -/
def encode (img : Img) (payload : List Nat) : Except ChampleveError Img :=
  if img.pixelCount < payload.length then .error .payloadTooBig
  else
    match img with
    | .rgb8 px => .ok (.rgb8 (encodePixels payload px))
    | .rgba8 px => .ok (.rgba8 (encodePixels payload px))
    | .unsupported f _ => .error (.unsupportedFormat f)

/-- Embeds `ChampleveCodec::decode`. -/
def decode (img : Img) : Except ChampleveError (Img × List Nat) :=
  match img with
  | .rgb8 px => .ok (.rgb8 (decodePixels px).1, (decodePixels px).2)
  | .rgba8 px => .ok (.rgba8 (decodePixels px).1, (decodePixels px).2)
  | .unsupported f _ => .error (.unsupportedFormat f)

end Champleve

namespace LosslessLsb

/-- Error enum of `src/lossless/lsb.rs` (`LsbError`). -/
inductive LsbError
  | payloadTooBig
  | unsupportedFormat (format : PixelFormat)
deriving DecidableEq

/-- Loop body of `lossless/lsb.rs::encode_pixel`. -/
def encodePixelGo (payloadByte : Nat) (bitsRemaining : Int) : List Nat → List Nat
  | [] => []
  | ch :: rest =>
      let ch1 := ch &&& 248
      let br := bitsRemaining - 3
      if br ≤ -3 then ch1 :: rest
      else
        let mask := (if br < 0 then payloadByte <<< (-br).toNat
                     else payloadByte >>> br.toNat) &&& 7
        (ch1 ||| mask) :: encodePixelGo payloadByte br rest

/-- Models `*pixel.channels_mut().last_mut().unwrap() |= 1` of
`lossless/lsb.rs`. -/
def orLastOne : List Nat → List Nat
  | [] => []
  | [ch] => [ch ||| 1]
  | ch :: rest => ch :: orLastOne rest

/-- Embeds `lossless/lsb.rs::encode_pixel`. -/
def encodePixel (px : List Nat) (payloadByte : Nat) (endOfData : Bool) : List Nat :=
  let px1 := encodePixelGo payloadByte 8 px
  if endOfData then orLastOne px1 else px1

/-- Loop body of `lossless/lsb.rs::decode_pixel`. -/
def decodePixelGo (bitsRemaining : Int) (acc : Nat) : List Nat → List Nat × Nat
  | [] => ([], acc)
  | ch :: rest =>
      let br := bitsRemaining - 3
      if br ≤ -3 then (ch :: rest, acc)
      else
        let chBits := ch &&& 7
        let mask := if br < 0 then chBits >>> (-br).toNat else chBits <<< br.toNat
        let step := decodePixelGo br (acc ||| mask) rest
        ((ch &&& 248) :: step.1, step.2)

/-- Embeds `lossless/lsb.rs::decode_pixel`. -/
def decodePixel (px : List Nat) : Option (List Nat × Nat) :=
  if px.getLastD 0 &&& 1 = 1 then none
  else some (decodePixelGo 8 0 px)

/-- The per-pixel loop of `lossless/lsb.rs::LsbCodec::encode`. -/
def encodePixels : List Nat → List (List Nat) → List (List Nat)
  | _, [] => []
  | [], px :: rest => encodePixel px 0 true :: encodePixels [] rest
  | b :: bs, px :: rest => encodePixel px b false :: encodePixels bs rest

/-- The per-pixel loop of `lossless/lsb.rs::LsbCodec::decode`. -/
def decodePixels : List (List Nat) → List (List Nat) × List Nat
  | [] => ([], [])
  | px :: rest =>
      match decodePixel px with
      | none => (px :: rest, [])
      | some (px1, b) =>
          let step := decodePixels rest
          (px1 :: step.1, b :: step.2)

/-- Embeds `lossless/lsb.rs::LsbCodec::encode`. -/
def encode (img : Img) (payload : List Nat) : Except LsbError Img :=
  if img.pixelCount < payload.length then .error .payloadTooBig
  else
    match img with
    | .rgb8 px => .ok (.rgb8 (encodePixels payload px))
    | .rgba8 px => .ok (.rgba8 (encodePixels payload px))
    | .unsupported f _ => .error (.unsupportedFormat f)

/-- Embeds `lossless/lsb.rs::LsbCodec::decode`. -/
def decode (img : Img) : Except LsbError (Img × List Nat) :=
  match img with
  | .rgb8 px => .ok (.rgb8 (decodePixels px).1, (decodePixels px).2)
  | .rgba8 px => .ok (.rgba8 (decodePixels px).1, (decodePixels px).2)
  | .unsupported f _ => .error (.unsupportedFormat f)

/-- Maps each `ChampleveError` variant to the `LsbError` variant of the
same name, for stating that the two codecs agree up to error renaming. -/
def ofChampleveError : Champleve.ChampleveError → LsbError
  | .payloadTooBig => .payloadTooBig
  | .unsupportedFormat f => .unsupportedFormat f

end LosslessLsb

namespace WavLsb

/-- Models `hound::SampleFormat`. -/
inductive SampleFormat
  | float
  | int
deriving DecidableEq

/-- A parsed WAV file: its `WavSpec` sample format and bit depth, plus the
sample stream, each sample as the little-endian byte list `to_le_bytes`
yields for it (1 byte for `i8`, 2 for `i16`, 4 for `i32`/`f32`). -/
structure WavFile where
  format : SampleFormat
  bitsPerSample : Nat
  samples : List (List Nat)
deriving DecidableEq

/-- Embeds `wav/lsb.rs::encode_byte` with the running chunk index `i` of
`sample_chunk.enumerate()` made explicit: each sample of the (at most
8-sample) chunk receives bit `7 - i` of the payload byte in bit 0 of byte
index 1 of its little-endian representation.  `sample_bytes[1]` is an
out-of-bounds index — a panic — when the sample has fewer than 2 bytes. -/
def encodeByte (payloadByte : Nat) (i : Nat) : List (List Nat) → Except CodecError (List (List Nat))
  | [] => .ok []
  | s :: rest =>
      match s[1]? with
      | none => .error .panicked
      | some b1 =>
          match encodeByte payloadByte (i + 1) rest with
          | .error e => .error e
          | .ok out => .ok (s.set 1 ((b1 &&& 254) ||| ((payloadByte >>> (7 - i)) &&& 1)) :: out)

/-- The per-sample loop shared by the two reading passes of
`wav/lsb.rs::decode`: bit 0 of byte index 1 of each sample contributes bit
`7 - i` of the reconstructed byte. -/
def decodeByte (i acc : Nat) : List (List Nat) → Except CodecError Nat
  | [] => .ok acc
  | s :: rest =>
      match s[1]? with
      | none => .error .panicked
      | some b1 => decodeByte (i + 1) (acc ||| ((b1 &&& 1) <<< (7 - i))) rest

/-- Proof-side helper (not a source function): the value `decodeByte`
reads back from a `k`-sample chunk written by `encodeByte` from chunk
index `i` on — bits `7-i, 7-(i+1), …` of the byte, each masked out and
shifted back into place. -/
def bitsAcc (b i : Nat) : Nat → Nat
  | 0 => 0
  | k + 1 => (((b >>> (7 - i)) &&& 1) <<< (7 - i)) ||| bitsAcc b (i + 1) k

/-- The chunk loop of `wav/lsb.rs::encode`: each 8-sample chunk carries one
byte of the header-plus-payload stream; once the stream is exhausted, the
remaining samples are copied through unchanged.  When the chunks run out
first, the leftover stream bytes are dropped without any error. -/
def encodeGo : List Nat → List (List Nat) → Except CodecError (List (List Nat))
  | _, [] => .ok []
  | [], s :: rest => .ok (s :: rest)
  | b :: bs, s :: rest =>
      match encodeByte b 0 ((s :: rest).take 8) with
      | .error e => .error e
      | .ok chunk =>
          match encodeGo bs ((s :: rest).drop 8) with
          | .error e => .error e
          | .ok out => .ok (chunk ++ out)

/-- Embeds `wav/lsb.rs::LsbCodec::encode` after the (external) `hound`
parse: the 4-byte little-endian header `payload.len() + 4` followed by the
payload is embedded chunk-wise; the `(sample_format, bits_per_sample)`
dispatch only selects the sample type, whose byte width is already carried
by the byte-list samples. -/
def encode (w : WavFile) (payload : List Nat) : Except CodecError (List (List Nat)) :=
  let msg := toLE 4 (payload.length + 4) ++ payload
  match w.format, w.bitsPerSample with
  | .float, _ => encodeGo msg w.samples
  | .int, 8 => encodeGo msg w.samples
  | .int, 16 => encodeGo msg w.samples
  | .int, 32 => encodeGo msg w.samples
  | .int, _ =>
      .error (.dataInvalid "Provided WAV data has an unsupported number of bits per sample.")

/-- The payload-reading loop of `wav/lsb.rs::decode`: read one byte per
8-sample chunk, pushing it before testing `decoded.len() >= payload_length`
(so a zero `payload_length` still takes one byte when samples remain).
The loop's growing `decoded` vector and its `decoded.len() >= payload_length`
break are recast as the count `need` of bytes still to read: the loop
breaks right after a push exactly when at most one byte was still needed. -/
def decodeGo : Nat → List (List Nat) → Except CodecError (List Nat)
  | _, [] => .ok []
  | 0, s :: rest =>
      match decodeByte 0 0 ((s :: rest).take 8) with
      | .error e => .error e
      | .ok b => .ok [b]
  | 1, s :: rest =>
      match decodeByte 0 0 ((s :: rest).take 8) with
      | .error e => .error e
      | .ok b => .ok [b]
  | n + 2, s :: rest =>
      match decodeByte 0 0 ((s :: rest).take 8) with
      | .error e => .error e
      | .ok b => (decodeGo (n + 1) ((s :: rest).drop 8)).map (fun out => b :: out)

/-- Embeds `wav/lsb.rs::decode` after the dispatch: the first 32 samples
(4 chunks of 8, short chunks leaving the missing bits at 0) rebuild the
little-endian `u32` length field; `payload_length` is that value minus 4
(`usize` subtraction: wrapping in release builds — in debug it panics, and
it is unreachable for well-formed encodings); it is validated against the
number of remaining samples, then the payload bytes are read chunk-wise. -/
def decodeCore (samples : List (List Nat)) : Except CodecError (List Nat) :=
  let t := samples.take 32
  match decodeByte 0 0 (t.take 8) with
  | .error e => .error e
  | .ok b0 =>
  match decodeByte 0 0 ((t.drop 8).take 8) with
  | .error e => .error e
  | .ok b1 =>
  match decodeByte 0 0 ((t.drop 16).take 8) with
  | .error e => .error e
  | .ok b2 =>
  match decodeByte 0 0 ((t.drop 24).take 8) with
  | .error e => .error e
  | .ok b3 =>
  let v := fromLE [b0, b1, b2, b3]
  let plen := if 4 ≤ v then v - 4 else v + (2 ^ 64 - 4)
  if (samples.drop 32).length < plen then .error .dataNotEncoded
  else decodeGo plen (samples.drop 32)

/-- Embeds `wav/lsb.rs::LsbCodec::decode`: after the dispatch (an
unsupported integer bit depth is `DataNotEncoded` here), the decoded
payload is returned together with `encoded.to_vec()` — the unmodified
input buffer, represented by the input's own sample view. -/
def decode (w : WavFile) : Except CodecError (List (List Nat) × List Nat) :=
  let core :=
    match w.format, w.bitsPerSample with
    | .float, _ => decodeCore w.samples
    | .int, 8 => decodeCore w.samples
    | .int, 16 => decodeCore w.samples
    | .int, 32 => decodeCore w.samples
    | .int, _ => .error .dataNotEncoded
  match core with
  | .error e => .error e
  | .ok p => .ok (w.samples, p)

end WavLsb

namespace JpegSegment

/-- A JPEG marker segment of `img_parts`: its marker byte and contents. -/
structure Seg where
  marker : Nat
  contents : List Nat
deriving DecidableEq

/-- Error enum of `src/jpeg/segment.rs` (`JpegSegmentError`), whose only
variant wraps an `img_parts` parse failure — unreachable here because the
model starts from the parsed segment list.  `panicked` again models Rust
panics. -/
inductive JpegSegmentError
  | parseFailed
  | panicked
deriving DecidableEq

/-- The COM marker `img_parts::jpeg::markers::COM` (0xFE). -/
def comMarker : Nat := 254

/-- Models `Vec::insert` at a valid index (the caller checks the bound). -/
def insIdx {α : Type} : Nat → α → List α → List α
  | 0, x, l => x :: l
  | _ + 1, _, [] => []
  | n + 1, x, a :: l => a :: insIdx n x l

/-- Models `Vec::remove` at a valid index (the caller checks the bound). -/
def removeAt {α : Type} : Nat → List α → List α
  | _, [] => []
  | 0, _ :: l => l
  | n + 1, a :: l => a :: removeAt n l

/-- Models `slice::chunks(k)` for `k ≥ 1` (Rust panics on `chunks(0)`;
the codec only ever uses `k = 65533`). -/
def chunksOf {α : Type} (k : Nat) : List α → List (List α)
  | [] => []
  | a :: l => (a :: l.take (k - 1)) :: chunksOf k (l.drop (k - 1))
termination_by l => l.length
decreasing_by simp; omega

/-- Models `((payload.len() + size_of::<u64>()) as u64).div_ceil(u16::MAX -
size_of::<u16>())`, i.e. `ceil((payloadLen + 8) / 65533)`. -/
def segCount (payloadLen : Nat) : Nat := (payloadLen + 8 + 65532) / 65533

/-- The chunk-insertion loop of `JpegSegmentCodec::encode`: chunk `i` is
inserted at `start_index + i` (here the running index is folded into `s`).
`Vec::insert` panics when the index exceeds the current length. -/
def insertSegs : Nat → List (List Nat) → List Seg → Except JpegSegmentError (List Seg)
  | _, [], segs => .ok segs
  | s, c :: cs, segs =>
      if s ≤ segs.length then insertSegs (s + 1) cs (insIdx s ⟨comMarker, c⟩ segs)
      else .error .panicked

/-- Embeds `JpegSegmentCodec::encode` after the (external) `img_parts`
parse: the 8-byte little-endian segment count is spliced in front of the
payload, the result is chunked into at most 65533-byte pieces and each
chunk becomes a COM segment inserted from `start_index` on. -/
def encode (startIndex : Nat) (segs : List Seg) (payload : List Nat) :
    Except JpegSegmentError (List Seg) :=
  insertSegs startIndex (chunksOf 65533 (toLE 8 (segCount payload.length) ++ payload)) segs

/-- The removal loop of `JpegSegmentCodec::decode`: `n` further segments
are removed at the (fixed) index `s`, their contents concatenated in
removal order.  `Vec::remove(s)` is modelled as reading
`(segs.drop s).head?` — the element at index `s`, `none` exactly when `s`
is out of bounds, which in Rust is a panic — and deleting it with
`removeAt`. -/
def removeSegs : Nat → Nat → List Seg → Except JpegSegmentError (List Seg × List Nat)
  | 0, _, segs => .ok (segs, [])
  | n + 1, s, segs =>
      match (segs.drop s).head? with
      | none => .error .panicked
      | some seg =>
          match removeSegs n s (removeAt s segs) with
          | .error e => .error e
          | .ok (segs1, acc) => .ok (segs1, seg.contents ++ acc)

/-- The tail of `JpegSegmentCodec::decode` after the first removal: read
the removed segment's first 8 bytes (a panic when it is shorter) as the
segment count, then remove `count - 1` further segments at the same index
(`0..count-1` on a `usize` panics — in release mode after draining the
list — when `count` is 0), concatenating all contents into the payload. -/
def decodeWith (startIndex : Nat) (seg : Seg) (segs1 : List Seg) :
    Except JpegSegmentError (List Seg × List Nat) :=
  if 8 ≤ seg.contents.length then
    let cnt := fromLE (seg.contents.take 8)
    if cnt = 0 then .error .panicked
    else
      match removeSegs (cnt - 1) startIndex segs1 with
      | .error e => .error e
      | .ok (segs2, more) => .ok (segs2, seg.contents.drop 8 ++ more)
  else .error .panicked

/-- Embeds `JpegSegmentCodec::decode` after the (external) `img_parts`
parse: remove the segment at `start_index` (again `head?` of `drop`,
`none` being Rust's out-of-bounds panic) and continue with `decodeWith`. -/
def decode (startIndex : Nat) (segs : List Seg) :
    Except JpegSegmentError (List Seg × List Nat) :=
  match (segs.drop startIndex).head? with
  | none => .error .panicked
  | some seg => decodeWith startIndex seg (removeAt startIndex segs)

end JpegSegment

/-! Basic facts about the byte-level helpers. -/

theorem toLE_length (k n : Nat) : (toLE k n).length = k := by
  induction k generalizing n with
  | zero => rfl
  | succ k ih => simp [toLE, ih]

theorem fromLE_toLE (k n : Nat) : fromLE (toLE k n) = n % 256 ^ k := by
  induction k generalizing n with
  | zero => simp [toLE, fromLE, Nat.mod_one]
  | succ k ih =>
      rw [toLE, fromLE, ih, pow_succ, Nat.mul_comm (256 ^ k) 256, Nat.mod_mul]

theorem fromLE_toLE_of_lt {k n : Nat} (h : n < 256 ^ k) : fromLE (toLE k n) = n := by
  rw [fromLE_toLE, Nat.mod_eq_of_lt h]

theorem toLE_lt (k n : Nat) : ∀ b ∈ toLE k n, b < 256 := by
  induction k generalizing n with
  | zero => simp [toLE]
  | succ k ih =>
      intro b hb
      rw [toLE] at hb
      rcases List.mem_cons.mp hb with h | h
      · subst h; exact Nat.mod_lt _ (by norm_num)
      · exact ih _ _ h

/-! General facts about `Nat` bit manipulation used by the pixel and
sample codecs. -/

theorem and_or_right (x y z : Nat) : (x ||| y) &&& z = x &&& z ||| y &&& z := by
  apply Nat.eq_of_testBit_eq
  intro i
  simp [Nat.testBit_or, Nat.testBit_and]
  cases x.testBit i <;> cases y.testBit i <;> cases z.testBit i <;> simp

theorem and248_and (h m : Nat) (hm : 248 &&& m = 0) : h &&& 248 &&& m = 0 := by
  rw [Nat.and_assoc, hm, Nat.and_zero]

theorem shl_one_and_one (b : Nat) : (b <<< 1) &&& 1 = 0 := by
  rw [Nat.shiftLeft_eq, Nat.and_one_is_mod, pow_one, Nat.mul_mod_left]

/-! Appendix codec: general behaviour. -/

namespace ReverseAppendix

theorem encode_eq (carrier payload : List Nat) :
    encode carrier payload =
      .ok (carrier ++ (toLE 8 (payload.length + 8) ++ payload).reverse) := rfl

/-- The appendix round-trip does hold whenever the carrier is at least
8 bytes long (and the length field does not wrap). -/
theorem decode_encode (carrier payload : List Nat) (hc : 8 ≤ carrier.length)
    (hp : payload.length + 16 < 2 ^ 64) :
    ∃ e, encode carrier payload = .ok e ∧ decode e = .ok (carrier, payload) := by
  refine ⟨carrier ++ (toLE 8 (payload.length + 8) ++ payload).reverse, rfl, ?_⟩
  have hlen8 : (toLE 8 (payload.length + 8)).length = 8 := toLE_length 8 _
  have hrevlen : ((toLE 8 (payload.length + 8) ++ payload).reverse).length
      = 8 + payload.length := by
    simp [hlen8, Nat.add_comm]
  have hrev : (carrier ++ (toLE 8 (payload.length + 8) ++ payload).reverse).reverse
      = toLE 8 (payload.length + 8) ++ payload ++ carrier.reverse := by
    simp
  have hflen : fromLE (toLE 8 (payload.length + 8)) = payload.length + 8 := by
    rw [fromLE_toLE]
    exact Nat.mod_eq_of_lt (by omega)
  rw [decode]
  rw [if_neg (by simp [hrevlen]; omega)]
  have htake : ((carrier ++ (toLE 8 (payload.length + 8) ++ payload).reverse).reverse).take 8
      = toLE 8 (payload.length + 8) := by
    rw [hrev, List.append_assoc, List.take_append_of_le_length (by omega),
      List.take_of_length_le (by omega)]
  rw [htake, hflen]
  rw [if_neg (by omega)]
  rw [if_neg (by simp [hrevlen]; omega)]
  have hcar : (carrier ++ (toLE 8 (payload.length + 8) ++ payload).reverse).take
      ((carrier ++ (toLE 8 (payload.length + 8) ++ payload).reverse).length - (payload.length + 8))
      = carrier := by
    have hclen : (carrier ++ (toLE 8 (payload.length + 8) ++ payload).reverse).length
        - (payload.length + 8) = carrier.length := by
      simp [hrevlen]; omega
    rw [hclen, List.take_append_of_le_length (by omega), List.take_of_length_le (by omega)]
  have hpay : (((carrier ++ (toLE 8 (payload.length + 8) ++ payload).reverse).reverse).drop 8).take
      (payload.length + 8 - 8) = payload := by
    rw [hrev, List.append_assoc, List.drop_append_of_le_length (by omega),
      List.drop_of_length_le (by omega), List.nil_append,
      List.take_append_of_le_length (by omega), Nat.add_sub_cancel,
      List.take_of_length_le (by omega)]
  rw [Except.ok.injEq, Prod.mk.injEq]
  exact ⟨hcar, hpay⟩

/-- Conversely, the length check `encoded_len < payload_len + 8` makes
decode reject every encode output whose carrier is shorter than 8 bytes. -/
theorem decode_encode_short (carrier payload : List Nat) (hc : carrier.length < 8)
    (hp : payload.length + 16 < 2 ^ 64) :
    ∃ e, encode carrier payload = .ok e ∧ decode e = .error .dataNotEncoded := by
  refine ⟨carrier ++ (toLE 8 (payload.length + 8) ++ payload).reverse, rfl, ?_⟩
  have hlen8 : (toLE 8 (payload.length + 8)).length = 8 := toLE_length 8 _
  have hrevlen : ((toLE 8 (payload.length + 8) ++ payload).reverse).length
      = 8 + payload.length := by
    simp [hlen8, Nat.add_comm]
  have hrev : (carrier ++ (toLE 8 (payload.length + 8) ++ payload).reverse).reverse
      = toLE 8 (payload.length + 8) ++ payload ++ carrier.reverse := by
    simp
  have hflen : fromLE (toLE 8 (payload.length + 8)) = payload.length + 8 := by
    rw [fromLE_toLE]
    exact Nat.mod_eq_of_lt (by omega)
  have htake : ((carrier ++ (toLE 8 (payload.length + 8) ++ payload).reverse).reverse).take 8
      = toLE 8 (payload.length + 8) := by
    rw [hrev, List.append_assoc, List.take_append_of_le_length (by omega),
      List.take_of_length_le (by omega)]
  rw [decode]
  rw [if_neg (by simp [hrevlen]; omega)]
  rw [htake, hflen]
  rw [if_neg (by omega)]
  rw [if_pos (by simp [hrevlen]; omega)]

end ReverseAppendix

/-! Claim theorems for the appendix codec. -/

/-- Claim C9: for every carrier and payload, `BinaryReverseAppendixCodec::encode`
returns `Ok`, and its output is the carrier followed by the reverse of the
8-byte little-endian `payload.len() + 8` concatenated with the payload;
hence the first `carrier.len()` output bytes are the carrier unchanged and
the output length is `carrier.len() + payload.len() + 8`. -/
theorem claim_C9 (carrier payload : List Nat) :
    ∃ e, ReverseAppendix.encode carrier payload = .ok e ∧
      e = carrier ++ (toLE 8 (payload.length + 8) ++ payload).reverse ∧
      e.take carrier.length = carrier ∧
      e.length = carrier.length + payload.length + 8 := by
  refine ⟨_, rfl, rfl, List.take_left carrier _, ?_⟩
  simp [toLE_length]
  omega

/-- Claim C6 (against the code): encoding payload `[0x01, 0x02]` onto
carrier `[0xAA, 0xBB]` does yield trailer length 10 and appends exactly
the reverse of `[0x0A, 0, 0, 0, 0, 0, 0, 0, 0x01, 0x02]` — but decoding
the resulting 12-byte buffer returns `DataNotEncoded` instead of the
claimed `([0xAA, 0xBB], [0x01, 0x02])`, because the length check demands
`encoded.len() ≥ trailer_len + 8`, i.e. a carrier of at least 8 bytes. -/
theorem claim_C6 :
    ReverseAppendix.encode [170, 187] [1, 2] =
      .ok [170, 187, 2, 1, 0, 0, 0, 0, 0, 0, 0, 10] ∧
    ReverseAppendix.decode [170, 187, 2, 1, 0, 0, 0, 0, 0, 0, 0, 10] =
      .error .dataNotEncoded := ⟨rfl, rfl⟩

/-- Claim C1 (against the code): the appendix round-trip fails on carriers
shorter than 8 bytes — here the empty carrier with the empty payload
encodes fine but decodes to `DataNotEncoded` (the JPEG half of the claim
is proved as `jpeg_decode_encode`; the appendix half only holds for
carriers of at least 8 bytes, `ReverseAppendix.decode_encode`). -/
theorem claim_C1 :
    ReverseAppendix.encode [] [] = .ok [0, 0, 0, 0, 0, 0, 0, 8] ∧
    ReverseAppendix.decode [0, 0, 0, 0, 0, 0, 0, 8] = .error .dataNotEncoded := ⟨rfl, rfl⟩

/-! Champleve codec: per-pixel behaviour. -/

namespace Champleve

theorem getLastD_cons3 (a b c d : Nat) : List.getLastD [a, b, c] d = c := rfl

theorem getLastD_cons4 (a b c e d : Nat) : List.getLastD [a, b, c, e] d = e := rfl

/-- A payload pixel's last channel has bit 0 clear (its low 3 bits come
from `payload_byte << 1`). -/
theorem marker_bit_clear (h b : Nat) : (h &&& 248 ||| (b <<< 1) &&& 7) &&& 1 = 0 := by
  rw [and_or_right, and248_and h 1 (by decide), Nat.zero_or, Nat.and_assoc,
    (show (7 &&& 1 : Nat) = 1 from rfl), shl_one_and_one]

/-- An end-of-data pixel's last channel has bit 0 set. -/
theorem marker_bit_set (h : Nat) : ((h &&& 248) ||| 1) &&& 1 = 1 := by
  rw [and_or_right, and248_and h 1 (by decide), Nat.zero_or]
  decide

/-- Reassembling the three 3-bit channel slices recovers the payload byte. -/
theorem byteRecover7 : ∀ b, b < 256 →
    ((((b >>> 5) &&& 7 &&& 7) <<< 5) ||| ((b >>> 2) &&& 7 &&& 7) <<< 2) |||
      ((b <<< 1) &&& 7 &&& 7) >>> 1 = b := by decide

theorem decoded_byte (h0 h1 h2 b : Nat) (hb : b < 256) :
    ((0 ||| ((h0 &&& 248 ||| (b >>> 5) &&& 7) &&& 7) <<< 5)
      ||| ((h1 &&& 248 ||| (b >>> 2) &&& 7) &&& 7) <<< 2)
      ||| ((h2 &&& 248 ||| (b <<< 1) &&& 7) &&& 7) >>> 1 = b := by
  rw [and_or_right (h0 &&& 248), and_or_right (h1 &&& 248), and_or_right (h2 &&& 248),
    and248_and h0 7 (by decide), and248_and h1 7 (by decide), and248_and h2 7 (by decide)]
  simp only [Nat.zero_or]
  exact byteRecover7 b hb

theorem encodePixel3 (h0 h1 h2 b : Nat) :
    encodePixel [h0, h1, h2] b false =
      [h0 &&& 248 ||| (b >>> 5) &&& 7,
       h1 &&& 248 ||| (b >>> 2) &&& 7,
       h2 &&& 248 ||| (b <<< 1) &&& 7] := by
  norm_num [encodePixel, encodePixelGo, show Int.toNat 5 = 5 from rfl,
    show Int.toNat 2 = 2 from rfl]

theorem encodePixel3_eod (h0 h1 h2 : Nat) :
    encodePixel [h0, h1, h2] 0 true =
      [h0 &&& 248, h1 &&& 248, (h2 &&& 248) ||| 1] := by
  norm_num [encodePixel, encodePixelGo, orLastOne, show Int.toNat 5 = 5 from rfl,
    show Int.toNat 2 = 2 from rfl]

theorem encodePixel4 (h0 h1 h2 h3 b : Nat) :
    encodePixel [h0, h1, h2, h3] b false =
      [h0 &&& 248 ||| (b >>> 5) &&& 7,
       h1 &&& 248 ||| (b >>> 2) &&& 7,
       h2 &&& 248 ||| (b <<< 1) &&& 7,
       h3 &&& 248] := by
  norm_num [encodePixel, encodePixelGo, show Int.toNat 5 = 5 from rfl,
    show Int.toNat 2 = 2 from rfl]

theorem encodePixel4_eod (h0 h1 h2 h3 : Nat) :
    encodePixel [h0, h1, h2, h3] 0 true =
      [h0 &&& 248, h1 &&& 248, h2 &&& 248, (h3 &&& 248) ||| 1] := by
  norm_num [encodePixel, encodePixelGo, orLastOne, show Int.toNat 5 = 5 from rfl,
    show Int.toNat 2 = 2 from rfl]

theorem decodePixelGo3 (a0 a1 a2 : Nat) :
    decodePixelGo 8 0 [a0, a1, a2] =
      ([a0 &&& 248, a1 &&& 248, a2 &&& 248],
        ((0 ||| (a0 &&& 7) <<< 5) ||| (a1 &&& 7) <<< 2) ||| (a2 &&& 7) >>> 1) := by
  norm_num [decodePixelGo, show Int.toNat 5 = 5 from rfl, show Int.toNat 2 = 2 from rfl]

theorem decodePixelGo4 (a0 a1 a2 a3 : Nat) :
    decodePixelGo 8 0 [a0, a1, a2, a3] =
      ([a0 &&& 248, a1 &&& 248, a2 &&& 248, a3],
        ((0 ||| (a0 &&& 7) <<< 5) ||| (a1 &&& 7) <<< 2) ||| (a2 &&& 7) >>> 1) := by
  norm_num [decodePixelGo, show Int.toNat 5 = 5 from rfl, show Int.toNat 2 = 2 from rfl]

theorem decode_encodePixel3 (h0 h1 h2 b : Nat) (hb : b < 256) :
    decodePixel (encodePixel [h0, h1, h2] b false) =
      some ([(h0 &&& 248 ||| (b >>> 5) &&& 7) &&& 248,
             (h1 &&& 248 ||| (b >>> 2) &&& 7) &&& 248,
             (h2 &&& 248 ||| (b <<< 1) &&& 7) &&& 248], b) := by
  rw [encodePixel3, decodePixel, if_neg (by rw [getLastD_cons3, marker_bit_clear]; decide),
    decodePixelGo3, decoded_byte h0 h1 h2 b hb]

theorem decode_encodePixel3_eod (h0 h1 h2 : Nat) :
    decodePixel (encodePixel [h0, h1, h2] 0 true) = none := by
  rw [encodePixel3_eod, decodePixel, if_pos (by rw [getLastD_cons3, marker_bit_set])]

theorem decode_encodePixel4 (h0 h1 h2 h3 b : Nat) (hb : b < 256) :
    decodePixel (encodePixel [h0, h1, h2, h3] b false) =
      some ([(h0 &&& 248 ||| (b >>> 5) &&& 7) &&& 248,
             (h1 &&& 248 ||| (b >>> 2) &&& 7) &&& 248,
             (h2 &&& 248 ||| (b <<< 1) &&& 7) &&& 248,
             h3 &&& 248], b) := by
  rw [encodePixel4, decodePixel,
    if_neg (by rw [getLastD_cons4, and248_and h3 1 (by decide)]; decide),
    decodePixelGo4, decoded_byte h0 h1 h2 b hb]

theorem decode_encodePixel4_eod (h0 h1 h2 h3 : Nat) :
    decodePixel (encodePixel [h0, h1, h2, h3] 0 true) = none := by
  rw [encodePixel4_eod, decodePixel, if_pos (by rw [getLastD_cons4, marker_bit_set])]

theorem encodePixelGo_length (b : Nat) (br : Int) (l : List Nat) :
    (encodePixelGo b br l).length = l.length := by
  induction l generalizing br with
  | nil => rfl
  | cons ch rest ih =>
      rw [encodePixelGo]
      split
      · simp
      · simp [ih]

theorem orLastOne_length (l : List Nat) : (orLastOne l).length = l.length := by
  induction l with
  | nil => rfl
  | cons a t ih =>
      cases t with
      | nil => rfl
      | cons b t => simpa [orLastOne] using ih

theorem encodePixel_length (px : List Nat) (b : Nat) (e : Bool) :
    (encodePixel px b e).length = px.length := by
  cases e <;> simp [encodePixel, orLastOne_length, encodePixelGo_length]

theorem encodePixels_length (p : List Nat) (pxs : List (List Nat)) :
    (encodePixels p pxs).length = pxs.length := by
  induction pxs generalizing p with
  | nil => cases p <;> rfl
  | cons px rest ih =>
      cases p with
      | nil => simp [encodePixels, encodePixel_length, ih]
      | cons b bs => simp [encodePixels, encodePixel_length, ih]

/-- The payload component of decode-of-encode, RGB8 images. -/
theorem roundtrip3 (payload : List Nat) (pxs : List (List Nat))
    (hpx : ∀ p ∈ pxs, p.length = 3) (hb : ∀ b ∈ payload, b < 256)
    (hlen : payload.length ≤ pxs.length) :
    (decodePixels (encodePixels payload pxs)).2 = payload := by
  induction payload generalizing pxs with
  | nil =>
      cases pxs with
      | nil => rfl
      | cons px rest =>
          obtain ⟨h0, h1, h2, rfl⟩ :=
            List.length_eq_three.mp (hpx px (List.mem_cons_self px rest))
          rw [encodePixels, decodePixels, decode_encodePixel3_eod]
  | cons b bs ih =>
      cases pxs with
      | nil => simp at hlen
      | cons px rest =>
          obtain ⟨h0, h1, h2, rfl⟩ :=
            List.length_eq_three.mp (hpx px (List.mem_cons_self px rest))
          rw [encodePixels, decodePixels,
            decode_encodePixel3 h0 h1 h2 b (hb b (List.mem_cons_self b bs))]
          simpa using ih rest (fun p hp => hpx p (List.mem_cons_of_mem _ hp))
            (fun x hx => hb x (List.mem_cons_of_mem _ hx)) (by simpa using hlen)

theorem length_eq_four {α : Type} {l : List α} (h : l.length = 4) :
    ∃ a b c d, l = [a, b, c, d] := by
  cases l with
  | nil => simp at h
  | cons a l =>
  cases l with
  | nil => simp at h
  | cons b l =>
  cases l with
  | nil => simp at h
  | cons c l =>
  cases l with
  | nil => simp at h
  | cons d l =>
  cases l with
  | nil => exact ⟨a, b, c, d, rfl⟩
  | cons e l => simp at h

/-- The payload component of decode-of-encode, RGBA8 images. -/
theorem roundtrip4 (payload : List Nat) (pxs : List (List Nat))
    (hpx : ∀ p ∈ pxs, p.length = 4) (hb : ∀ b ∈ payload, b < 256)
    (hlen : payload.length ≤ pxs.length) :
    (decodePixels (encodePixels payload pxs)).2 = payload := by
  induction payload generalizing pxs with
  | nil =>
      cases pxs with
      | nil => rfl
      | cons px rest =>
          obtain ⟨h0, h1, h2, h3, rfl⟩ :=
            length_eq_four (hpx px (List.mem_cons_self px rest))
          rw [encodePixels, decodePixels, decode_encodePixel4_eod]
  | cons b bs ih =>
      cases pxs with
      | nil => simp at hlen
      | cons px rest =>
          obtain ⟨h0, h1, h2, h3, rfl⟩ :=
            length_eq_four (hpx px (List.mem_cons_self px rest))
          rw [encodePixels, decodePixels,
            decode_encodePixel4 h0 h1 h2 h3 b (hb b (List.mem_cons_self b bs))]
          simpa using ih rest (fun p hp => hpx p (List.mem_cons_of_mem _ hp))
            (fun x hx => hb x (List.mem_cons_of_mem _ hx)) (by simpa using hlen)

/-- Insufficient pixel capacity is rejected before the format dispatch. -/
theorem encode_too_big (img : Img) (payload : List Nat)
    (h : img.pixelCount < payload.length) :
    encode img payload = .error .payloadTooBig := by
  rw [encode.eq_def, if_pos h]

/-- A 3-channel pixel written by `encode_pixel` never has 3 as its last
channel: payload pixels have bit 0 clear there, end-of-data pixels have
bit 1 clear. -/
theorem encodePixel_ne_003 (q : List Nat) (b : Nat) :
    encodePixel q b false ≠ [0, 0, 3] ∧ encodePixel q 0 true ≠ [0, 0, 3] := by
  constructor <;> intro h
  · have hl : q.length = 3 := by
      have := encodePixel_length q b false
      rw [h] at this
      simpa using this.symm
    obtain ⟨h0, h1, h2, rfl⟩ := List.length_eq_three.mp hl
    rw [encodePixel3] at h
    simp only [List.cons.injEq, and_true] at h
    have h2eq : h2 &&& 248 ||| (b <<< 1) &&& 7 = 3 := h.2.2
    have := marker_bit_clear h2 b
    rw [h2eq] at this
    simp at this
  · have hl : q.length = 3 := by
      have := encodePixel_length q 0 true
      rw [h] at this
      simpa using this.symm
    obtain ⟨h0, h1, h2, rfl⟩ := List.length_eq_three.mp hl
    rw [encodePixel3_eod] at h
    simp only [List.cons.injEq, and_true] at h
    have h2eq : (h2 &&& 248) ||| 1 = 3 := h.2.2
    have hbit : ((h2 &&& 248) ||| 1) &&& 2 = 0 := by
      rw [and_or_right, and248_and h2 2 (by decide), Nat.zero_or]
      decide
    rw [h2eq] at hbit
    simp at hbit

/-- The image `rgb8 [[0,0,0],[0,0,3]]` is not in the range of
`ChampleveCodec::encode`: its second pixel's last channel is 3. -/
theorem not_encodable_003 (c : Img) (p : List Nat) :
    encode c p ≠ .ok (Img.rgb8 [[0, 0, 0], [0, 0, 3]]) := by
  intro h
  rw [encode.eq_def] at h
  split at h
  · exact Except.noConfusion h
  · cases c with
    | rgb8 pxs =>
        simp only [Except.ok.injEq, Img.rgb8.injEq] at h
        have hlen : pxs.length = 2 := by
          have := encodePixels_length p pxs
          rw [h] at this
          simpa using this.symm
        obtain ⟨q0, q1, rfl⟩ := List.length_eq_two.mp hlen
        rename_i hcap
        simp only [Img.pixelCount, not_lt] at hcap
        cases p with
        | nil =>
            rw [encodePixels, encodePixels, encodePixels] at h
            simp only [List.cons.injEq, and_true] at h
            exact (encodePixel_ne_003 q1 0).2 h.2
        | cons a p1 =>
            cases p1 with
            | nil =>
                rw [encodePixels, encodePixels, encodePixels] at h
                simp only [List.cons.injEq, and_true] at h
                exact (encodePixel_ne_003 q1 0).2 h.2
            | cons a2 p2 =>
                cases p2 with
                | nil =>
                    rw [encodePixels, encodePixels, encodePixels] at h
                    simp only [List.cons.injEq, and_true] at h
                    exact (encodePixel_ne_003 q1 a2).1 h.2
                | cons a3 p3 => simp at hcap
    | rgba8 pxs => simp at h
    | unsupported f n => exact Except.noConfusion h

end Champleve

/-- Claim C4 (against the code): the RGB8 image `[[0,0,0],[0,0,3]]` was
never produced by `ChampleveCodec::encode` (its second pixel's last
channel can be written by neither a payload nor a marker pixel), yet
`decode` returns `Ok` with the spurious payload `[0]` instead of a
`NotEncoded`/`Invalid` error. -/
theorem claim_C4_counterexample :
    (∀ (c : Img) (p : List Nat),
      Champleve.encode c p ≠ .ok (Img.rgb8 [[0, 0, 0], [0, 0, 3]])) ∧
    Champleve.decode (Img.rgb8 [[0, 0, 0], [0, 0, 3]]) =
      .ok (Img.rgb8 [[0, 0, 0], [0, 0, 3]], [0]) :=
  ⟨Champleve.not_encodable_003, rfl⟩

/-- Claim C4, amended: decode of the image codec never fails on a
supported pixel format — it returns `Ok` with a (possibly spurious,
possibly empty) payload for every RGB8 and every RGBA8 input, as the
`Codec` trait documentation itself warns. The appendix codec returns
`DataNotEncoded` exactly when the buffer is shorter than 8 bytes, or the
trailing little-endian length field is below `2^64 - 8` and is itself
below 8 or exceeds the buffer length minus 8; and on a buffer of at
least 8 bytes whose trailing length field is at least `2^64 - 8` it does
not return an error at all — the `usize` computation `payload_len + 8`
panics (add overflow in debug; in release the wrapped bound makes the
carrier slice panic out of range). -/
theorem claim_C4 :
    (∀ pxs, ∃ r, Champleve.decode (Img.rgb8 pxs) = .ok r) ∧
    (∀ pxs, ∃ r, Champleve.decode (Img.rgba8 pxs) = .ok r) ∧
    (∀ e : List Nat,
      ReverseAppendix.decode e = .error .dataNotEncoded ↔
        (e.length < 8 ∨ (fromLE (e.reverse.take 8) < 2 ^ 64 - 8 ∧
          (e.length < fromLE (e.reverse.take 8) + 8 ∨
            fromLE (e.reverse.take 8) < 8)))) ∧
    (∀ e : List Nat,
      ReverseAppendix.decode e = .error .panicked ↔
        (8 ≤ e.length ∧ 2 ^ 64 - 8 ≤ fromLE (e.reverse.take 8))) := by
  refine ⟨fun pxs => ⟨_, rfl⟩, fun pxs => ⟨_, rfl⟩, ?_, ?_⟩
  · intro e
    rw [ReverseAppendix.decode]
    split
    · rename_i h1
      simp [h1]
    · rename_i h1
      dsimp only
      split
      · rename_i h2
        simp only [not_lt] at h1
        simp
        omega
      · rename_i h2
        split
        · rename_i h3
          simp only [not_lt] at h1
          simp
          omega
        · rename_i h3
          simp only [not_lt] at h1
          simp
          omega
  · intro e
    rw [ReverseAppendix.decode]
    split
    · rename_i h1
      simp
      omega
    · rename_i h1
      dsimp only
      split
      · rename_i h2
        simp only [not_lt] at h1
        simp
        omega
      · rename_i h2
        split
        · rename_i h3
          simp
          omega
        · rename_i h3
          simp
          omega

/-! Extensional equality of the two lossless image codecs. -/

namespace LosslessLsb

theorem encodePixelGo_eq (b : Nat) (br : Int) (l : List Nat) :
    encodePixelGo b br l = Champleve.encodePixelGo b br l := by
  induction l generalizing br with
  | nil => rfl
  | cons ch rest ih =>
      by_cases hc : (br - 3 : Int) ≤ -3
      · simp [encodePixelGo, Champleve.encodePixelGo, hc]
      · by_cases hd : (br - 3 : Int) < 0 <;>
          simp [encodePixelGo, Champleve.encodePixelGo, hc, hd, ih]

theorem orLastOne_eq (l : List Nat) : orLastOne l = Champleve.orLastOne l := by
  induction l with
  | nil => rfl
  | cons a t ih =>
      cases t with
      | nil => rfl
      | cons b t => simpa [orLastOne, Champleve.orLastOne] using ih

theorem encodePixel_eq (px : List Nat) (b : Nat) (e : Bool) :
    encodePixel px b e = Champleve.encodePixel px b e := by
  cases e <;>
    simp [encodePixel, Champleve.encodePixel, encodePixelGo_eq, orLastOne_eq]

theorem decodePixelGo_eq (br : Int) (acc : Nat) (l : List Nat) :
    decodePixelGo br acc l = Champleve.decodePixelGo br acc l := by
  induction l generalizing br acc with
  | nil => rfl
  | cons ch rest ih =>
      by_cases hc : (br - 3 : Int) ≤ -3
      · simp [decodePixelGo, Champleve.decodePixelGo, hc]
      · by_cases hd : (br - 3 : Int) < 0 <;>
          simp [decodePixelGo, Champleve.decodePixelGo, hc, hd, ih]

theorem decodePixel_eq (px : List Nat) :
    decodePixel px = Champleve.decodePixel px := by
  simp [decodePixel, Champleve.decodePixel, decodePixelGo_eq]

theorem encodePixels_eq (p : List Nat) (pxs : List (List Nat)) :
    encodePixels p pxs = Champleve.encodePixels p pxs := by
  induction pxs generalizing p with
  | nil => cases p <;> rfl
  | cons px rest ih =>
      cases p with
      | nil =>
          rw [encodePixels, Champleve.encodePixels, encodePixel_eq, ih]
      | cons b bs =>
          rw [encodePixels, Champleve.encodePixels, encodePixel_eq, ih]

theorem decodePixels_eq (pxs : List (List Nat)) :
    decodePixels pxs = Champleve.decodePixels pxs := by
  induction pxs with
  | nil => rfl
  | cons px rest ih =>
      rw [decodePixels, Champleve.decodePixels, decodePixel_eq]
      cases Champleve.decodePixel px with
      | none => rfl
      | some v => rw [ih]

end LosslessLsb

/-- Claim C8: `ChampleveCodec` and the lossless `LsbCodec` are
extensionally equal — on every image carrier and payload their encodes
agree, and on every image their decodes agree, up to the variant-for-
variant renaming of their error enums. -/
theorem claim_C8 :
    (∀ (img : Img) (payload : List Nat),
      LosslessLsb.encode img payload =
        (Champleve.encode img payload).mapError LosslessLsb.ofChampleveError) ∧
    (∀ img : Img,
      LosslessLsb.decode img =
        (Champleve.decode img).mapError LosslessLsb.ofChampleveError) := by
  constructor
  · intro img payload
    rw [LosslessLsb.encode.eq_def, Champleve.encode.eq_def]
    split
    · rfl
    · cases img with
      | rgb8 px => simp [Except.mapError, LosslessLsb.encodePixels_eq]
      | rgba8 px => simp [Except.mapError, LosslessLsb.encodePixels_eq]
      | unsupported f n => rfl
  · intro img
    cases img with
    | rgb8 px =>
        simp [LosslessLsb.decode, Champleve.decode, Except.mapError,
          LosslessLsb.decodePixels_eq]
    | rgba8 px =>
        simp [LosslessLsb.decode, Champleve.decode, Except.mapError,
          LosslessLsb.decodePixels_eq]
    | unsupported f n => rfl

/-! WAV LSB codec: byte-level behaviour. -/

namespace WavLsb

/-- The embedded bit of a written sample byte. -/
theorem written_bit (b1 t : Nat) : ((b1 &&& 254) ||| (t &&& 1)) &&& 1 = t &&& 1 := by
  rw [and_or_right, Nat.and_assoc, Nat.and_assoc,
    (show (254 &&& 1 : Nat) = 0 from rfl), (show (1 &&& 1 : Nat) = 1 from rfl),
    Nat.and_zero, Nat.zero_or]

/-- Reassembling the 8 sample bits of a full chunk recovers the byte. -/
theorem bitsAcc_eight : ∀ b, b < 256 → bitsAcc b 0 8 = b := by decide

/-- Writing then reading one chunk: `encodeByte` succeeds on samples of at
least 2 bytes, preserves all lengths, and `decodeByte` reads back exactly
the written bit contributions. -/
theorem encodeByte_decodeByte (b : Nat) :
    ∀ (chunk : List (List Nat)) (i acc : Nat),
      (∀ s ∈ chunk, 2 ≤ s.length) →
      ∃ c, encodeByte b i chunk = .ok c ∧
        c.length = chunk.length ∧
        (∀ s ∈ c, 2 ≤ s.length) ∧
        decodeByte i acc c = .ok (acc ||| bitsAcc b i chunk.length) := by
  intro chunk
  induction chunk with
  | nil =>
      intro i acc _
      exact ⟨[], rfl, rfl, by simp, by simp [decodeByte, bitsAcc]⟩
  | cons s rest ih =>
      intro i acc hs
      have hslen : 2 ≤ s.length := hs s (List.mem_cons_self s rest)
      have h1 : (1 : Nat) < s.length := by omega
      obtain ⟨c', henc, hlen, hmem, hdec⟩ :=
        ih (i + 1) (acc ||| (((b >>> (7 - i)) &&& 1) <<< (7 - i)))
          (fun x hx => hs x (List.mem_cons_of_mem _ hx))
      refine ⟨s.set 1 ((s[1] &&& 254) ||| ((b >>> (7 - i)) &&& 1)) :: c', ?_, ?_, ?_, ?_⟩
      · rw [encodeByte, List.getElem?_eq_getElem h1, henc]
      · simp [hlen]
      · intro x hx
        rcases List.mem_cons.mp hx with rfl | hx
        · rw [List.length_set]; exact hslen
        · exact hmem x hx
      · have hget : (s.set 1 ((s[1] &&& 254) ||| ((b >>> (7 - i)) &&& 1)))[1]? =
            some ((s[1] &&& 254) ||| ((b >>> (7 - i)) &&& 1)) :=
          List.getElem?_set_self (by omega)
        simp only [decodeByte, hget]
        rw [written_bit, hdec, List.length_cons, bitsAcc, Nat.or_assoc]

/-- The encode loop succeeds when all needed chunks are full and wide
enough, leaves the sample count unchanged, and produces groups that read
back to the message bytes (samples past the message are untouched). -/
theorem encodeGo_spec :
    ∀ (msg : List Nat) (samples : List (List Nat)),
      (∀ s ∈ samples, 2 ≤ s.length) → 8 * msg.length ≤ samples.length →
      (∀ x ∈ msg, x < 256) →
      ∃ out, encodeGo msg samples = .ok out ∧
        out.length = samples.length ∧
        (∀ (i : Nat) (hi : i < msg.length),
          decodeByte 0 0 ((out.drop (8 * i)).take 8) = .ok msg[i]) ∧
        out.drop (8 * msg.length) = samples.drop (8 * msg.length) := by
  intro msg
  induction msg with
  | nil =>
      intro samples hs hcap hb
      cases samples with
      | nil => exact ⟨[], rfl, rfl, by intro i hi; simp at hi, by simp⟩
      | cons s rest => exact ⟨s :: rest, rfl, rfl, by intro i hi; simp at hi, by simp⟩
  | cons b bs ih =>
      intro samples hs hcap hb
      cases samples with
      | nil => simp at hcap
      | cons s rest =>
          have hslen : 8 ≤ (s :: rest).length := by
            simp only [List.length_cons] at hcap ⊢
            omega
          have hchunk8 : ((s :: rest).take 8).length = 8 := by
            rw [List.length_take]
            omega
          obtain ⟨c, henc, hclen, hcmem, hcdec⟩ :=
            encodeByte_decodeByte b ((s :: rest).take 8) 0 0
              (fun x hx => hs x (List.take_subset 8 _ hx))
          obtain ⟨out', henc', hlen', hgrp', hbeyond'⟩ := ih ((s :: rest).drop 8)
            (fun x hx => hs x (List.drop_subset 8 _ hx))
            (by
              rw [List.length_drop]
              simp only [List.length_cons] at hcap ⊢
              omega)
            (fun x hx => hb x (List.mem_cons_of_mem _ hx))
          have hc8 : c.length = 8 := by rw [hclen, hchunk8]
          refine ⟨c ++ out', ?_, ?_, ?_, ?_⟩
          · rw [encodeGo, henc, henc']
          · rw [List.length_append, hc8, hlen', List.length_drop]
            simp only [List.length_cons] at hcap ⊢
            omega
          · intro i hi
            cases i with
            | zero =>
                rw [Nat.mul_zero, List.drop_zero, List.take_left' hc8, hcdec, hchunk8,
                  Nat.zero_or, bitsAcc_eight b (hb b (List.mem_cons_self b bs))]
                simp
            | succ j =>
                have hdropped : (c ++ out').drop (8 * (j + 1)) = out'.drop (8 * j) := by
                  rw [(show 8 * (j + 1) = c.length + 8 * j by rw [hc8]; ring),
                    List.drop_append]
                rw [hdropped, hgrp' j (by simpa using hi)]
                simp
          · rw [List.length_cons,
              (show 8 * (bs.length + 1) = c.length + 8 * bs.length by rw [hc8]; ring),
              List.drop_append, hbeyond', List.drop_drop, hc8]

theorem decodeGo_one (s : List Nat) (rest : List (List Nat)) (b : Nat)
    (h : decodeByte 0 0 ((s :: rest).take 8) = .ok b) :
    decodeGo 1 (s :: rest) = .ok [b] := by
  rw [decodeGo, h]

theorem decodeGo_cons_cons (n : Nat) (s : List Nat) (rest : List (List Nat)) (b : Nat)
    (h : decodeByte 0 0 ((s :: rest).take 8) = .ok b) :
    decodeGo (n + 2) (s :: rest) =
      (decodeGo (n + 1) ((s :: rest).drop 8)).map (fun out => b :: out) := by
  rw [decodeGo, h]

/-- The decode loop reads back exactly the byte sequence the groups hold,
stopping after `bs.length` bytes. -/
theorem decodeGo_spec :
    ∀ (bs : List Nat) (rest : List (List Nat)),
      bs ≠ [] →
      (∀ (j : Nat) (hj : j < bs.length),
        decodeByte 0 0 ((rest.drop (8 * j)).take 8) = .ok bs[j]) →
      8 * bs.length ≤ rest.length →
      decodeGo bs.length rest = .ok bs := by
  intro bs
  induction bs with
  | nil => intro rest h; exact absurd rfl h
  | cons b bs' ih =>
      intro rest _ hgrp hcap
      cases rest with
      | nil => simp at hcap
      | cons r rr =>
          have h0 := hgrp 0 (by simp)
          rw [Nat.mul_zero, List.drop_zero] at h0
          simp only [List.getElem_cons_zero] at h0
          cases bs' with
          | nil =>
              rw [(show (b :: ([] : List Nat)).length = 1 from rfl), decodeGo_one r rr b h0]
          | cons b2 bs'' =>
              have hshift : ∀ (j : Nat) (hj : j < (b2 :: bs'').length),
                  decodeByte 0 0 ((((r :: rr).drop 8).drop (8 * j)).take 8) =
                    .ok (b2 :: bs'')[j] := by
                intro j hj
                have h := hgrp (j + 1) (by simpa using hj)
                rw [List.drop_drop]
                rw [(show 8 + 8 * j = 8 * (j + 1) by ring)]
                simpa using h
              have hrec := ih ((r :: rr).drop 8) (by simp) hshift
                (by
                  rw [List.length_drop]
                  simp only [List.length_cons] at hcap ⊢
                  omega)
              rw [(show (b :: b2 :: bs'').length = bs''.length + 2 by simp),
                decodeGo_cons_cons bs''.length r rr b h0]
              rw [(show (b2 :: bs'').length = bs''.length + 1 by simp)] at hrec
              rw [hrec]
              rfl

/-- Full WAV round-trip at the sample level: the header-plus-payload
stream embeds and decodes back to the payload, for a non-empty payload
within capacity on samples at least 2 bytes wide. -/
theorem wav_roundtrip (payload : List Nat) (samples : List (List Nat))
    (hs : ∀ s ∈ samples, 2 ≤ s.length) (hb : ∀ x ∈ payload, x < 256)
    (hcap : 8 * (payload.length + 4) ≤ samples.length)
    (hne : payload ≠ []) (hlen : payload.length + 4 < 2 ^ 32) :
    ∃ out, encodeGo (toLE 4 (payload.length + 4) ++ payload) samples = .ok out ∧
      decodeCore out = .ok payload := by
  obtain ⟨a0, a1, a2, a3, ha⟩ := Champleve.length_eq_four (toLE_length 4 (payload.length + 4))
  have hmlen : (toLE 4 (payload.length + 4) ++ payload).length = payload.length + 4 := by
    rw [List.length_append, toLE_length]
    ring
  have hmb : ∀ x ∈ toLE 4 (payload.length + 4) ++ payload, x < 256 := by
    intro x hx
    rcases List.mem_append.mp hx with hx | hx
    · exact toLE_lt 4 _ x hx
    · exact hb x hx
  obtain ⟨out, henc, holen, hgrp, _⟩ :=
    encodeGo_spec (toLE 4 (payload.length + 4) ++ payload) samples hs
      (by rw [hmlen]; exact hcap) hmb
  refine ⟨out, henc, ?_⟩
  rw [ha] at hgrp
  have hmlen4 : ([a0, a1, a2, a3] ++ payload).length = payload.length + 4 := by
    simp
  have e0 := hgrp 0 (by rw [hmlen4]; omega)
  have e1 := hgrp 1 (by rw [hmlen4]; omega)
  have e2 := hgrp 2 (by rw [hmlen4]; omega)
  have e3 := hgrp 3 (by rw [hmlen4]; omega)
  rw [Nat.mul_zero, List.drop_zero] at e0
  rw [(show 8 * 1 = 8 from rfl)] at e1
  rw [(show 8 * 2 = 16 from rfl)] at e2
  rw [(show 8 * 3 = 24 from rfl)] at e3
  simp only [List.cons_append, List.nil_append, List.getElem_cons_zero,
    List.getElem_cons_succ] at e0 e1 e2 e3
  have hv : fromLE [a0, a1, a2, a3] = payload.length + 4 := by
    rw [← ha, fromLE_toLE, (show (256 : Nat) ^ 4 = 2 ^ 32 from rfl), Nat.mod_eq_of_lt hlen]
  have hrest : decodeGo payload.length (out.drop 32) = .ok payload := by
    apply decodeGo_spec payload (out.drop 32) hne
    · intro j hj
      have h := hgrp (4 + j) (by rw [hmlen4]; omega)
      have hb4j : 4 + j < ([a0, a1, a2, a3] ++ payload).length := by
        rw [hmlen4]
        omega
      have hidx : ([a0, a1, a2, a3] ++ payload)[4 + j] = payload[j] := by
        rw [List.getElem_append_right (by simp)]
        simp
      rw [List.drop_drop, (show 32 + 8 * j = 8 * (4 + j) by ring), h, hidx]
    · rw [List.length_drop, holen]
      omega
  simp only [decodeCore, List.take_take, List.drop_take]
  norm_num
  rw [e0, e1, e2, e3]
  simp only [hv]
  rw [if_pos (by omega : 4 ≤ payload.length + 4), Nat.add_sub_cancel]
  rw [if_neg (by omega)]
  exact hrest

/-- On every supported `(sample_format, bits_per_sample)` pair the encode
dispatch runs the same byte-level loop. -/
theorem encode_supported (w : WavFile)
    (hfmt : w.format = .float ∨ w.format = .int ∧
      (w.bitsPerSample = 8 ∨ w.bitsPerSample = 16 ∨ w.bitsPerSample = 32))
    (payload : List Nat) :
    encode w payload = encodeGo (toLE 4 (payload.length + 4) ++ payload) w.samples := by
  obtain ⟨f, bits, samples⟩ := w
  rcases hfmt with h | ⟨h, hb⟩
  · subst h; rfl
  · subst h
    rcases hb with h | h | h <;> subst h <;> rfl

/-- Decode dispatch, same shape. -/
theorem decode_supported (w : WavFile)
    (hfmt : w.format = .float ∨ w.format = .int ∧
      (w.bitsPerSample = 8 ∨ w.bitsPerSample = 16 ∨ w.bitsPerSample = 32)) :
    decode w = match decodeCore w.samples with
      | .error e => .error e
      | .ok p => .ok (w.samples, p) := by
  obtain ⟨f, bits, samples⟩ := w
  rcases hfmt with h | ⟨h, hb⟩
  · subst h; rfl
  · subst h
    rcases hb with h | h | h <;> subst h <;> rfl

/-- The encode loop cannot fail on samples at least 2 bytes wide — in
particular it does not fail when the payload exceeds the sample capacity;
the leftover payload bytes are silently dropped. -/
theorem encodeGo_ok :
    ∀ (msg : List Nat) (samples : List (List Nat)),
      (∀ s ∈ samples, 2 ≤ s.length) →
      ∃ out, encodeGo msg samples = .ok out := by
  intro msg
  induction msg with
  | nil =>
      intro samples hs
      cases samples with
      | nil => exact ⟨[], rfl⟩
      | cons s rest => exact ⟨s :: rest, rfl⟩
  | cons b bs ih =>
      intro samples hs
      cases samples with
      | nil => exact ⟨[], rfl⟩
      | cons s rest =>
          obtain ⟨c, henc, -, -, -⟩ :=
            encodeByte_decodeByte b ((s :: rest).take 8) 0 0
              (fun x hx => hs x (List.take_subset 8 _ hx))
          obtain ⟨out', henc'⟩ := ih ((s :: rest).drop 8)
            (fun x hx => hs x (List.drop_subset 8 _ hx))
          exact ⟨c ++ out', by rw [encodeGo, henc, henc']⟩

end WavLsb

/-- Claim C10: whenever the WAV LSB decode succeeds, the carrier component
of its result is exactly the input buffer — the embedded payload bits are
not removed or zeroed (the source returns `encoded.to_vec()`). -/
theorem claim_C10 (w : WavLsb.WavFile) (r : List (List Nat) × List Nat)
    (h : WavLsb.decode w = .ok r) : r.1 = w.samples := by
  rw [WavLsb.decode.eq_def] at h
  split at h <;> dsimp only at h <;>
    first
      | exact Except.noConfusion h
      | (split at h
         · exact Except.noConfusion h
         · cases h
           rfl)

/-- Concrete instantiation of `claim_C10`: a 40-sample 16-bit PCM file
with payload `[9]` embedded decodes successfully with the input itself as
the carrier component. -/
theorem claim_C10_witness :
    ((((((List.replicate 40 ([0, 0] : List Nat)).set 5 [0, 1]).set 7 [0, 1]).set 36
      [0, 1]).set 39 [0, 1], [9]) : List (List Nat) × List Nat).1 =
      (WavLsb.WavFile.mk .int 16 (((((List.replicate 40 ([0, 0] : List Nat)).set 5
        [0, 1]).set 7 [0, 1]).set 36 [0, 1]).set 39 [0, 1])).samples :=
  claim_C10 _ _ (rfl)

/-- Claim C2 (amended): the payload component round-trips exactly for RGB8
and RGBA8 images with byte payloads within the pixel count, and for
WAV files of a supported format whose samples are at least 2 bytes wide
(8-bit PCM panics, see C5), when the payload is non-empty, fits the
4-byte length field, and `8 * (payload.len() + 4)` samples exist. -/
theorem claim_C2 :
    (∀ (pxs : List (List Nat)) (payload : List Nat),
      (∀ p ∈ pxs, p.length = 3) → (∀ x ∈ payload, x < 256) →
      payload.length ≤ pxs.length →
      ∃ out, Champleve.encode (Img.rgb8 pxs) payload = .ok out ∧
        ∃ c, Champleve.decode out = .ok (c, payload)) ∧
    (∀ (pxs : List (List Nat)) (payload : List Nat),
      (∀ p ∈ pxs, p.length = 4) → (∀ x ∈ payload, x < 256) →
      payload.length ≤ pxs.length →
      ∃ out, Champleve.encode (Img.rgba8 pxs) payload = .ok out ∧
        ∃ c, Champleve.decode out = .ok (c, payload)) ∧
    (∀ (w : WavLsb.WavFile) (payload : List Nat),
      (w.format = .float ∨ w.format = .int ∧
        (w.bitsPerSample = 8 ∨ w.bitsPerSample = 16 ∨ w.bitsPerSample = 32)) →
      (∀ s ∈ w.samples, 2 ≤ s.length) → (∀ x ∈ payload, x < 256) →
      8 * (payload.length + 4) ≤ w.samples.length →
      payload ≠ [] → payload.length + 4 < 2 ^ 32 →
      ∃ out, WavLsb.encode w payload = .ok out ∧
        WavLsb.decode ⟨w.format, w.bitsPerSample, out⟩ = .ok (out, payload)) := by
  refine ⟨?_, ?_, ?_⟩
  · intro pxs payload hpx hb hlen
    refine ⟨.rgb8 (Champleve.encodePixels payload pxs), ?_, ?_, ?_⟩
    · rw [Champleve.encode.eq_def, if_neg (by simp only [Img.pixelCount]; omega)]
    · exact .rgb8 (Champleve.decodePixels (Champleve.encodePixels payload pxs)).1
    · rw [Champleve.decode, Champleve.roundtrip3 payload pxs hpx hb hlen]
  · intro pxs payload hpx hb hlen
    refine ⟨.rgba8 (Champleve.encodePixels payload pxs), ?_, ?_, ?_⟩
    · rw [Champleve.encode.eq_def, if_neg (by simp only [Img.pixelCount]; omega)]
    · exact .rgba8 (Champleve.decodePixels (Champleve.encodePixels payload pxs)).1
    · rw [Champleve.decode, Champleve.roundtrip4 payload pxs hpx hb hlen]
  · intro w payload hfmt hs hb hcap hne hlen
    obtain ⟨out, henc, hdec⟩ := WavLsb.wav_roundtrip payload w.samples hs hb hcap hne hlen
    refine ⟨out, ?_, ?_⟩
    · rw [WavLsb.encode_supported w hfmt payload, henc]
    · rw [WavLsb.decode_supported ⟨w.format, w.bitsPerSample, out⟩ hfmt, hdec]

/-- Concrete instantiation of `claim_C2` on a 1-pixel RGB8 image, a
1-pixel RGBA8 image, and a 40-sample 16-bit PCM WAV file. -/
theorem claim_C2_witness :
    (∃ out, Champleve.encode (Img.rgb8 [[0, 0, 0]]) [7] = .ok out ∧
      ∃ c, Champleve.decode out = .ok (c, [7])) ∧
    (∃ out, Champleve.encode (Img.rgba8 [[0, 0, 0, 0]]) [7] = .ok out ∧
      ∃ c, Champleve.decode out = .ok (c, [7])) ∧
    (∃ out, WavLsb.encode ⟨.int, 16, List.replicate 40 [0, 0]⟩ [9] = .ok out ∧
      WavLsb.decode ⟨.int, 16, out⟩ = .ok (out, [9])) :=
  ⟨claim_C2.1 [[0, 0, 0]] [7] (by decide) (by decide) (by decide),
   claim_C2.2.1 [[0, 0, 0, 0]] [7] (by decide) (by decide) (by decide),
   claim_C2.2.2 ⟨.int, 16, List.replicate 40 [0, 0]⟩ [9]
     (Or.inr ⟨rfl, Or.inr (Or.inl rfl)⟩) (by decide) (by decide) (by decide)
     (by decide) (by decide)⟩

/-- Claim C2 (against the code): for the WAV codec the empty payload does
not round-trip on a carrier with more than 32 samples — the decode loop
pushes one byte before testing `decoded.len() >= payload_length`, so a
zero-length payload decodes to one spurious byte. -/
theorem claim_C2_counterexample :
    WavLsb.encode ⟨.int, 16, List.replicate 33 [0, 0]⟩ [] =
      .ok ((List.replicate 33 ([0, 0] : List Nat)).set 5 [0, 1]) ∧
    WavLsb.decode ⟨.int, 16, (List.replicate 33 ([0, 0] : List Nat)).set 5 [0, 1]⟩ =
      .ok ((List.replicate 33 ([0, 0] : List Nat)).set 5 [0, 1], [0]) ∧
    ([0] : List Nat) ≠ [] := ⟨rfl, rfl, by decide⟩

/-- Claim C3 (amended): the image codec rejects a payload longer than the
pixel count with `PayloadTooBig` before any pixel is touched, for every
image — but the WAV codec's encode never fails on wide-enough samples,
even when the payload exceeds the sample capacity: it silently truncates
(see the counterexample). -/
theorem claim_C3 :
    (∀ (img : Img) (payload : List Nat), img.pixelCount < payload.length →
      Champleve.encode img payload = .error .payloadTooBig) ∧
    (∀ (w : WavLsb.WavFile) (payload : List Nat),
      (w.format = .float ∨ w.format = .int ∧
        (w.bitsPerSample = 8 ∨ w.bitsPerSample = 16 ∨ w.bitsPerSample = 32)) →
      (∀ s ∈ w.samples, 2 ≤ s.length) →
      ∃ out, WavLsb.encode w payload = .ok out) := by
  refine ⟨Champleve.encode_too_big, ?_⟩
  intro w payload hfmt hs
  obtain ⟨out, hout⟩ := WavLsb.encodeGo_ok (toLE 4 (payload.length + 4) ++ payload) w.samples hs
  exact ⟨out, by rw [WavLsb.encode_supported w hfmt payload, hout]⟩

/-- Concrete instantiation of `claim_C3`: a 0-pixel image rejects a 1-byte
payload, and an 8-sample (1-byte-capacity) WAV carrier accepts a 5-byte
payload without error. -/
theorem claim_C3_witness :
    Champleve.encode (Img.unsupported (.other 0) 0) [1] =
      .error .payloadTooBig ∧
    ∃ out, WavLsb.encode ⟨.int, 16, List.replicate 8 [0, 0]⟩ [1, 2, 3, 4, 5] = .ok out :=
  ⟨claim_C3.1 (Img.unsupported (.other 0) 0) [1] (by decide),
   claim_C3.2 ⟨.int, 16, List.replicate 8 [0, 0]⟩ [1, 2, 3, 4, 5]
     (Or.inr ⟨rfl, Or.inr (Or.inl rfl)⟩) (by decide)⟩

/-- Claim C3 (against the code): an 8-sample 16-bit PCM carrier can hold
only the first header byte, yet encoding a 5-byte payload returns `Ok`,
silently dropping everything else — decoding the result then fails,
showing the data was lost rather than the encode failing. -/
theorem claim_C3_counterexample :
    WavLsb.encode ⟨.int, 16, List.replicate 8 [0, 0]⟩ [1, 2, 3, 4, 5] =
      .ok (((List.replicate 8 ([0, 0] : List Nat)).set 4 [0, 1]).set 7 [0, 1]) ∧
    WavLsb.decode ⟨.int, 16, ((List.replicate 8 ([0, 0] : List Nat)).set 4 [0, 1]).set 7
      [0, 1]⟩ = .error .dataNotEncoded := ⟨rfl, rfl⟩

/-- Claim C5 (against the code): for every 8-bit PCM carrier with at least
one sample (whose samples' little-endian representation is a single byte)
and every payload, `encode` panics — `encode_byte` indexes
`sample_bytes[1]` on the 1-byte representation, out of bounds — instead
of completing as the claim (and the codec's own doc comment listing 8-bit
PCM as supported) states. -/
theorem claim_C5 (samples : List (List Nat)) (payload : List Nat)
    (hne : samples ≠ []) (hw : ∀ s ∈ samples, s.length = 1) :
    WavLsb.encode ⟨.int, 8, samples⟩ payload = .error .panicked := by
  cases samples with
  | nil => exact absurd rfl hne
  | cons s rest =>
      show WavLsb.encodeGo (toLE 4 (payload.length + 4) ++ payload) (s :: rest) =
        .error .panicked
      rw [toLE, List.cons_append, WavLsb.encodeGo, List.take_succ_cons,
        WavLsb.encodeByte,
        List.getElem?_eq_none (by rw [hw s (List.mem_cons_self s rest)])]

/-- Concrete instantiation of `claim_C5`: one 8-bit sample, empty payload. -/
theorem claim_C5_witness :
    WavLsb.encode ⟨.int, 8, [[0]]⟩ [] = .error .panicked :=
  claim_C5 [[0]] [] (by decide) (by decide)

/-! JPEG segment codec. -/

namespace JpegSegment

theorem take_append_cons {α : Type} (l1 : List α) (x : α) (l2 : List α) :
    (l1 ++ x :: l2).take (l1.length + 1) = l1 ++ [x] := by
  induction l1 with
  | nil => rfl
  | cons a l1 ih => simpa using ih

theorem drop_append_cons {α : Type} (l1 : List α) (x : α) (l2 : List α) :
    (l1 ++ x :: l2).drop (l1.length + 1) = l2 := by
  induction l1 with
  | nil => rfl
  | cons a l1 ih => simpa using ih

theorem removeAt_append_cons {α : Type} (l1 : List α) (x : α) (l2 : List α) :
    removeAt l1.length (l1 ++ x :: l2) = l1 ++ l2 := by
  induction l1 with
  | nil => rfl
  | cons a l1 ih => simpa [removeAt] using ih

theorem insIdx_eq {α : Type} (x : α) :
    ∀ (s : Nat) (l : List α), s ≤ l.length → insIdx s x l = l.take s ++ x :: l.drop s := by
  intro s
  induction s with
  | zero => intro l _; rfl
  | succ s ih =>
      intro l hl
      cases l with
      | nil => simp at hl
      | cons a l => simpa [insIdx] using ih l (by simpa using hl)

theorem insertSegs_spec :
    ∀ (cs : List (List Nat)) (s : Nat) (segs : List Seg), s ≤ segs.length →
      insertSegs s cs segs =
        .ok (segs.take s ++ cs.map (fun c => Seg.mk comMarker c) ++ segs.drop s) := by
  intro cs
  induction cs with
  | nil => intro s segs _; simp [insertSegs]
  | cons c cs ih =>
      intro s segs hs
      rw [insertSegs, if_pos hs, insIdx_eq _ s segs hs,
        ih (s + 1) _ (by
          have := List.length_take_of_le hs
          simp only [List.length_append, List.length_cons]
          omega)]
      have hpre : (segs.take s).length = s := List.length_take_of_le hs
      rw [(show s + 1 = (segs.take s).length + 1 by rw [hpre]),
        take_append_cons, drop_append_cons]
      simp

theorem removeSegs_spec :
    ∀ (cs : List (List Nat)) (pre post : List Seg),
      removeSegs cs.length pre.length
          (pre ++ cs.map (fun c => Seg.mk comMarker c) ++ post) =
        .ok (pre ++ post, cs.flatten) := by
  intro cs
  induction cs with
  | nil => intro pre post; simp [removeSegs]
  | cons c cs ih =>
      intro pre post
      have hsplit : pre ++ (c :: cs).map (fun c => Seg.mk comMarker c) ++ post =
          pre ++ Seg.mk comMarker c :: (cs.map (fun c => Seg.mk comMarker c) ++ post) := by
        simp
      rw [List.length_cons, hsplit, removeSegs, List.drop_left' rfl]
      simp only [List.head?_cons]
      rw [removeAt_append_cons, ← List.append_assoc, ih pre post]
      simp

theorem chunksOf_nil {α : Type} (k : Nat) : chunksOf k ([] : List α) = [] := by
  rw [chunksOf]

theorem chunksOf_cons_eq {α : Type} (k : Nat) (hk : 1 ≤ k) (a : α) (l : List α) :
    chunksOf k (a :: l) = (a :: l).take k :: chunksOf k ((a :: l).drop k) := by
  cases k with
  | zero => omega
  | succ m =>
      rw [chunksOf]
      simp

theorem chunksOf_of_ne_nil {α : Type} (k : Nat) (hk : 1 ≤ k) (l : List α) (h : l ≠ []) :
    chunksOf k l = l.take k :: chunksOf k (l.drop k) := by
  cases l with
  | nil => exact absurd rfl h
  | cons a l => exact chunksOf_cons_eq k hk a l

theorem chunksOf_flatten {α : Type} (k : Nat) (hk : 1 ≤ k) :
    ∀ (n : Nat) (l : List α), l.length ≤ n → (chunksOf k l).flatten = l := by
  intro n
  induction n with
  | zero =>
      intro l hl
      have hnil : l = [] := List.length_eq_zero.mp (by omega)
      subst hnil
      rw [chunksOf_nil]
      rfl
  | succ n ih =>
      intro l hl
      cases l with
      | nil => rw [chunksOf_nil]; rfl
      | cons a l =>
          rw [chunksOf, List.flatten_cons]
          rw [ih (l.drop (k - 1)) (by simp at hl ⊢; omega)]
          simp

theorem chunksOf_length {α : Type} (k : Nat) (hk : 1 ≤ k) :
    ∀ (n : Nat) (l : List α), l.length ≤ n →
      (chunksOf k l).length = (l.length + k - 1) / k := by
  intro n
  induction n with
  | zero =>
      intro l hl
      have hnil : l = [] := List.length_eq_zero.mp (by omega)
      subst hnil
      rw [chunksOf_nil]
      show 0 = (0 + k - 1) / k
      rw [Nat.div_eq_of_lt (by omega)]
  | succ n ih =>
      intro l hl
      cases l with
      | nil =>
          rw [chunksOf_nil]
          show 0 = (0 + k - 1) / k
          rw [Nat.div_eq_of_lt (by omega)]
      | cons a l =>
          rw [chunksOf, List.length_cons, List.length_cons,
            ih (l.drop (k - 1)) (by simp at hl ⊢; omega), List.length_drop]
          rcases le_or_lt (k - 1) l.length with hc | hc
          · rw [(show l.length - (k - 1) + k - 1 = l.length by omega),
              (show l.length + 1 + k - 1 = l.length + k by omega),
              Nat.add_div_right _ (by omega), Nat.add_comm]
          · rw [(show l.length - (k - 1) = 0 by omega),
              (show l.length + 1 + k - 1 = l.length + k by omega),
              Nat.add_div_right _ (by omega),
              Nat.div_eq_of_lt (by omega), Nat.div_eq_of_lt (by omega)]

/-- The JPEG segment round-trip: on a carrier with at least `start_index`
segments and a payload whose count field fits `u64`, decode undoes encode
exactly. -/
theorem jpeg_decode_encode (startIndex : Nat) (segs : List Seg) (payload : List Nat)
    (hs : startIndex ≤ segs.length) (hlen : payload.length + 8 < 2 ^ 64) :
    ∃ enc, encode startIndex segs payload = .ok enc ∧
      decode startIndex enc = .ok (segs, payload) := by
  have hblen : (toLE 8 (segCount payload.length) ++ payload).length = payload.length + 8 := by
    rw [List.length_append, toLE_length]
    ring
  have hCle : segCount payload.length < 2 ^ 64 := by
    have h1 : segCount payload.length ≤ payload.length + 8 := by
      rw [segCount, Nat.div_le_iff_le_mul_add_pred (by norm_num)]
      omega
    omega
  have hCpos : 1 ≤ segCount payload.length := by
    rw [segCount, Nat.le_div_iff_mul_le (by norm_num)]
    omega
  obtain ⟨b0, bs, hb⟩ : ∃ b0 bs, toLE 8 (segCount payload.length) ++ payload = b0 :: bs := by
    cases hby : toLE 8 (segCount payload.length) ++ payload with
    | nil =>
        have := congrArg List.length hby
        rw [hblen] at this
        simp at this
    | cons b0 bs => exact ⟨b0, bs, rfl⟩
  have hchunks := chunksOf_cons_eq 65533 (by norm_num) b0 bs
  rw [← hb] at hchunks
  have hchlen : (chunksOf 65533 (toLE 8 (segCount payload.length) ++ payload)).length =
      segCount payload.length := by
    rw [chunksOf_length 65533 (by norm_num) _ _ (le_refl _), hblen, segCount]
    congr 1 <;> omega
  obtain ⟨cs, hcs⟩ : ∃ cs, chunksOf 65533 (toLE 8 (segCount payload.length) ++ payload) =
      ((toLE 8 (segCount payload.length) ++ payload).take 65533) :: cs := by
    rw [hchunks, hb]
    exact ⟨_, rfl⟩
  have hcslen : cs.length = segCount payload.length - 1 := by
    have := hchlen
    rw [hcs] at this
    simp at this
    omega
  have hc0len : ((toLE 8 (segCount payload.length) ++ payload).take 65533).length =
      min 65533 (payload.length + 8) := by
    rw [List.length_take, hblen]
  have hc0ge8 : 8 ≤ ((toLE 8 (segCount payload.length) ++ payload).take 65533).length := by
    rw [hc0len]
    omega
  have hc0take8 : ((toLE 8 (segCount payload.length) ++ payload).take 65533).take 8 =
      toLE 8 (segCount payload.length) := by
    rw [List.take_take, (show min 8 65533 = 8 by norm_num),
      List.take_left' (toLE_length 8 _)]
  have hjoin : ((toLE 8 (segCount payload.length) ++ payload).take 65533) ++ cs.flatten =
      toLE 8 (segCount payload.length) ++ payload := by
    have := chunksOf_flatten 65533 (by norm_num)
      (toLE 8 (segCount payload.length) ++ payload).length
      (toLE 8 (segCount payload.length) ++ payload) (le_refl _)
    rw [hcs] at this
    simpa using this
  refine ⟨segs.take startIndex ++
      (chunksOf 65533 (toLE 8 (segCount payload.length) ++ payload)).map
        (fun c => Seg.mk comMarker c) ++ segs.drop startIndex,
    insertSegs_spec _ startIndex segs hs, ?_⟩
  rw [hcs, List.map_cons]
  have hpre : (segs.take startIndex).length = startIndex := List.length_take_of_le hs
  have hsplit : segs.take startIndex ++
      (Seg.mk comMarker ((toLE 8 (segCount payload.length) ++ payload).take 65533) ::
        cs.map (fun c => Seg.mk comMarker c)) ++ segs.drop startIndex =
      segs.take startIndex ++
        Seg.mk comMarker ((toLE 8 (segCount payload.length) ++ payload).take 65533) ::
          (cs.map (fun c => Seg.mk comMarker c) ++ segs.drop startIndex) := by
    simp
  rw [hsplit]
  have hrem : removeAt startIndex (segs.take startIndex ++
      Seg.mk comMarker ((toLE 8 (segCount payload.length) ++ payload).take 65533) ::
        (cs.map (fun c => Seg.mk comMarker c) ++ segs.drop startIndex)) =
      segs.take startIndex ++ (cs.map (fun c => Seg.mk comMarker c) ++ segs.drop startIndex) := by
    have := removeAt_append_cons (segs.take startIndex)
      (Seg.mk comMarker ((toLE 8 (segCount payload.length) ++ payload).take 65533))
      (cs.map (fun c => Seg.mk comMarker c) ++ segs.drop startIndex)
    rw [hpre] at this
    exact this
  have hdec1 : decode startIndex (segs.take startIndex ++
      Seg.mk comMarker ((toLE 8 (segCount payload.length) ++ payload).take 65533) ::
        (cs.map (fun c => Seg.mk comMarker c) ++ segs.drop startIndex)) =
      decodeWith startIndex
        (Seg.mk comMarker ((toLE 8 (segCount payload.length) ++ payload).take 65533))
        (removeAt startIndex (segs.take startIndex ++
          Seg.mk comMarker ((toLE 8 (segCount payload.length) ++ payload).take 65533) ::
            (cs.map (fun c => Seg.mk comMarker c) ++ segs.drop startIndex))) := by
    rw [decode.eq_def, List.drop_left' hpre]
    rfl
  rw [hdec1, hrem, decodeWith]
  rw [if_pos hc0ge8]
  dsimp only
  rw [hc0take8, fromLE_toLE_of_lt (by
    calc segCount payload.length < 2 ^ 64 := hCle
    _ ≤ 256 ^ 8 := by norm_num)]
  rw [if_neg (by omega)]
  have hrs : removeSegs (segCount payload.length - 1) startIndex
      (segs.take startIndex ++ (cs.map (fun c => Seg.mk comMarker c) ++ segs.drop startIndex)) =
      .ok (segs.take startIndex ++ segs.drop startIndex, cs.flatten) := by
    have := removeSegs_spec cs (segs.take startIndex) (segs.drop startIndex)
    rw [hcslen, hpre, List.append_assoc] at this
    exact this
  rw [hrs]
  have hpay : ((toLE 8 (segCount payload.length) ++ payload).take 65533).drop 8 ++ cs.flatten =
      payload := by
    have hd := congrArg (List.drop 8) hjoin
    rw [List.drop_append_of_le_length hc0ge8, List.drop_left' (toLE_length 8 _)] at hd
    exact hd
  show Except.ok (segs.take startIndex ++ segs.drop startIndex,
      ((toLE 8 (segCount payload.length) ++ payload).take 65533).drop 8 ++ cs.flatten) =
    .ok (segs, payload)
  rw [List.take_append_drop, hpay]

end JpegSegment

/-- Claim C7: an 8-byte little-endian segment count is prepended to the
payload, the combined buffer is split into at most 65533-byte chunks, one
COM segment per chunk inserted contiguously at the insertion index; a
payload of exactly `65533 * 2 + 1` bytes yields exactly 3 COM segments
(65533, 65533 and 9 bytes) whose count field reads 3, and decode restores
the carrier and the payload bytes in order. -/
theorem claim_C7 (startIndex : Nat) (segs : List JpegSegment.Seg) (payload : List Nat)
    (hs : startIndex ≤ segs.length) (hlen : payload.length = 2 * 65533 + 1) :
    ∃ c0 c1 c2 : List Nat,
      JpegSegment.encode startIndex segs payload =
        .ok (segs.take startIndex ++
          [⟨JpegSegment.comMarker, c0⟩, ⟨JpegSegment.comMarker, c1⟩,
           ⟨JpegSegment.comMarker, c2⟩] ++ segs.drop startIndex) ∧
      c0.take 8 = toLE 8 3 ∧
      c0.length = 65533 ∧ c1.length = 65533 ∧ c2.length = 9 ∧
      JpegSegment.decode startIndex (segs.take startIndex ++
        [⟨JpegSegment.comMarker, c0⟩, ⟨JpegSegment.comMarker, c1⟩,
         ⟨JpegSegment.comMarker, c2⟩] ++ segs.drop startIndex) =
        .ok (segs, payload) := by
  have hsc : JpegSegment.segCount payload.length = 3 := by
    rw [hlen, JpegSegment.segCount]
  have hbytes : (toLE 8 (JpegSegment.segCount payload.length) ++ payload).length = 131075 := by
    rw [List.length_append, toLE_length, hlen]
  have hne1 : toLE 8 (JpegSegment.segCount payload.length) ++ payload ≠ [] := by
    intro h
    rw [h] at hbytes
    simp at hbytes
  have hlen1 : ((toLE 8 (JpegSegment.segCount payload.length) ++ payload).drop 65533).length
      = 65542 := by
    rw [List.length_drop, hbytes]
  have hne2 : (toLE 8 (JpegSegment.segCount payload.length) ++ payload).drop 65533 ≠ [] := by
    intro h
    rw [h] at hlen1
    simp at hlen1
  have hlen2 : (((toLE 8 (JpegSegment.segCount payload.length) ++ payload).drop 65533).drop
      65533).length = 9 := by
    rw [List.length_drop, hlen1]
  have hne3 : ((toLE 8 (JpegSegment.segCount payload.length) ++ payload).drop 65533).drop
      65533 ≠ [] := by
    intro h
    rw [h] at hlen2
    simp at hlen2
  have hnil : ((((toLE 8 (JpegSegment.segCount payload.length) ++ payload).drop 65533).drop
      65533).drop 65533) = [] := by
    apply List.drop_of_length_le
    rw [hlen2]
    norm_num
  have hchunks3 : JpegSegment.chunksOf 65533
      (toLE 8 (JpegSegment.segCount payload.length) ++ payload) =
      [(toLE 8 (JpegSegment.segCount payload.length) ++ payload).take 65533,
       ((toLE 8 (JpegSegment.segCount payload.length) ++ payload).drop 65533).take 65533,
       (((toLE 8 (JpegSegment.segCount payload.length) ++ payload).drop 65533).drop 65533).take
         65533] := by
    rw [JpegSegment.chunksOf_of_ne_nil 65533 (by norm_num) _ hne1,
      JpegSegment.chunksOf_of_ne_nil 65533 (by norm_num) _ hne2,
      JpegSegment.chunksOf_of_ne_nil 65533 (by norm_num) _ hne3,
      hnil, JpegSegment.chunksOf_nil]
  have hencE : JpegSegment.encode startIndex segs payload =
      .ok (segs.take startIndex ++
        [⟨JpegSegment.comMarker, (toLE 8 (JpegSegment.segCount payload.length) ++
            payload).take 65533⟩,
         ⟨JpegSegment.comMarker, ((toLE 8 (JpegSegment.segCount payload.length) ++
            payload).drop 65533).take 65533⟩,
         ⟨JpegSegment.comMarker, (((toLE 8 (JpegSegment.segCount payload.length) ++
            payload).drop 65533).drop 65533).take 65533⟩] ++ segs.drop startIndex) := by
    rw [JpegSegment.encode, hchunks3, JpegSegment.insertSegs_spec _ startIndex segs hs]
    rfl
  obtain ⟨enc, henc, hdec⟩ := JpegSegment.jpeg_decode_encode startIndex segs payload hs
    (by rw [hlen]; norm_num)
  have hencenc : enc = segs.take startIndex ++
      [⟨JpegSegment.comMarker, (toLE 8 (JpegSegment.segCount payload.length) ++
          payload).take 65533⟩,
       ⟨JpegSegment.comMarker, ((toLE 8 (JpegSegment.segCount payload.length) ++
          payload).drop 65533).take 65533⟩,
       ⟨JpegSegment.comMarker, (((toLE 8 (JpegSegment.segCount payload.length) ++
          payload).drop 65533).drop 65533).take 65533⟩] ++ segs.drop startIndex := by
    rw [henc] at hencE
    exact Except.ok.inj hencE
  refine ⟨(toLE 8 (JpegSegment.segCount payload.length) ++ payload).take 65533,
    ((toLE 8 (JpegSegment.segCount payload.length) ++ payload).drop 65533).take 65533,
    (((toLE 8 (JpegSegment.segCount payload.length) ++ payload).drop 65533).drop 65533).take
      65533, hencE, ?_, ?_, ?_, ?_, ?_⟩
  · rw [List.take_take, (show min 8 65533 = 8 by norm_num), List.take_left' (toLE_length 8 _),
      hsc]
  · rw [List.length_take, hbytes]
    norm_num
  · rw [List.length_take, hlen1]
    norm_num
  · rw [List.length_take, hlen2]
    norm_num
  · rw [← hencenc]
    exact hdec

/-- Concrete instantiation of `claim_C7`: the all-zero payload of length
`2 * 65533 + 1` on an empty segment list with insertion index 0. -/
theorem claim_C7_witness :
    ∃ c0 c1 c2 : List Nat,
      JpegSegment.encode 0 [] (List.replicate 131067 0) =
        .ok (([] : List JpegSegment.Seg).take 0 ++
          [⟨JpegSegment.comMarker, c0⟩, ⟨JpegSegment.comMarker, c1⟩,
           ⟨JpegSegment.comMarker, c2⟩] ++ ([] : List JpegSegment.Seg).drop 0) ∧
      c0.take 8 = toLE 8 3 ∧
      c0.length = 65533 ∧ c1.length = 65533 ∧ c2.length = 9 ∧
      JpegSegment.decode 0 (([] : List JpegSegment.Seg).take 0 ++
        [⟨JpegSegment.comMarker, c0⟩, ⟨JpegSegment.comMarker, c1⟩,
         ⟨JpegSegment.comMarker, c2⟩] ++ ([] : List JpegSegment.Seg).drop 0) =
        .ok ([], List.replicate 131067 0) :=
  claim_C7 0 [] (List.replicate 131067 0) (Nat.zero_le _)
    (by rw [List.length_replicate])

end Occule
